import Mathlib

/-!
# Verification of the EML→PDF converter core (`src/eml2pdf/convert.py`)

Shallow embedding of the pure logic of `convert.py`: text splitting and
word-wrap (`_wrap_text`), paragraph drawing with pagination
(`_draw_paragraphs` and the direct-layout branch of `convert_eml_to_pdf`),
filename sanitization (`_sanitize_filename`), attachment persistence
(`_save_attachments`), body-part selection (`_get_body_parts`), body
resolution, input enumeration (`_iter_eml_files`) and the batch driver
(`batch_convert`).

Strings are modelled as `List Char`; bytes as `List Nat`; the filesystem as
explicit state threaded through the functions that mutate it.  Geometry uses
exact integers: every vertical coordinate reachable in the source is an
integer number of points (`inch = 72`, `line_height = 14`,
`14 * 1.5 = 21`), so float arithmetic in the source is exact and `Int` is a
faithful model.
-/

set_option autoImplicit false

namespace Eml2Pdf

/-- Whitespace characters recognised by Python `str.split()` / `str.strip()`
(ASCII fragment: space, tab, newline, carriage return, vertical tab, form
feed). -/
def isPySpace (c : Char) : Bool :=
  c = ' ' || c = '\t' || c = '\n' || c = '\r' || c = '\x0b' || c = '\x0c'

/-- Python `str.strip()`: drop leading and trailing whitespace. -/
def pyStrip (s : List Char) : List Char :=
  ((s.dropWhile isPySpace).reverse.dropWhile isPySpace).reverse

/-- Helper for `splitWords`: `acc` is the current word accumulated in
reverse. -/
def splitWordsAux : List Char → List Char → List (List Char)
  | [], acc => if acc = [] then [] else [acc.reverse]
  | c :: cs, acc =>
    if isPySpace c then
      if acc = [] then splitWordsAux cs [] else acc.reverse :: splitWordsAux cs []
    else
      splitWordsAux cs (c :: acc)

/-- Python `text.split()` (no argument): split on runs of whitespace,
producing no empty words. -/
def splitWords (s : List Char) : List (List Char) :=
  splitWordsAux s []

/-- Python `text.split("\n")`: split on each newline, keeping empty
segments. -/
def splitOnNl (s : List Char) : List (List Char) :=
  match s with
  | [] => [[]]
  | c :: cs =>
    match splitOnNl cs with
    | [] => [[]]
    | seg :: rest => if c = '\n' then [] :: seg :: rest else (c :: seg) :: rest

/-- Greedy packing loop of `_wrap_text` (convert.py lines 191-199): `line`
is the line under construction, already holding at least one word. -/
def wrapAux (width : Nat) : List (List Char) → List Char → List (List Char)
  | [], line => [line]
  | w :: ws, line =>
    if line.length + 1 + w.length ≤ width then
      wrapAux width ws (line ++ ' ' :: w)
    else
      line :: wrapAux width ws w

/-- `_wrap_text(text, width)` (convert.py lines 187-200): split into words,
then greedily pack words into lines of at most `width` characters, counting
one separating space per join; an empty word list yields no lines. -/
def wrap_text (text : List Char) (width : Nat) : List (List Char) :=
  match splitWords text with
  | [] => []
  | w :: ws => wrapAux width ws w

/-- Characters allowed by the sanitization class `[A-Za-z0-9._-]` of
`_sanitize_filename` (convert.py line 97). -/
def isAllowedChar (c : Char) : Bool :=
  ('A' ≤ c && c ≤ 'Z') || ('a' ≤ c && c ≤ 'z') || ('0' ≤ c && c ≤ '9') ||
    c = '.' || c = '_' || c = '-'

/-- Python `str.replace(a, b)` for single characters. -/
def replaceChar (a b : Char) (s : List Char) : List Char :=
  s.map fun c => if c = a then b else c

/-- Character loop of `re.sub(r"[^A-Za-z0-9._-]+", "_", s)`: the flag
records whether the scan is inside a run of disallowed characters, so each
maximal run emits exactly one underscore. -/
def subRunsAux : Bool → List Char → List Char
  | _, [] => []
  | inRun, c :: cs =>
    if isAllowedChar c then c :: subRunsAux false cs
    else if inRun then subRunsAux true cs
    else '_' :: subRunsAux true cs

/-- `re.sub(r"[^A-Za-z0-9._-]+", "_", s)`: each maximal run of characters
outside the allowed class is replaced by a single underscore. -/
def subDisallowedRuns (s : List Char) : List Char :=
  subRunsAux false s

/-- The stripped-and-separator-replaced name `_sanitize_filename` computes
first (convert.py line 94). -/
def strippedName (name : List Char) : List Char :=
  replaceChar '/' '_' (replaceChar '\\' '_' (pyStrip name))

/-- `_sanitize_filename(name, default)` (convert.py lines 93-97): strip
whitespace, replace `\` and `/` with `_`, fall back to `default` if empty,
then substitute runs of disallowed characters. -/
def sanitize_filename (name default : List Char) : List Char :=
  if strippedName name = [] then default else subDisallowedRuns (strippedName name)

/-- The sanitization as the claim words it: every character outside
`[A-Za-z0-9._-]` replaced with one underscore per offending character
(refinement candidate to compare with `sanitize_filename`). -/
def sanitize_filename_perchar_spec (name default : List Char) : List Char :=
  if strippedName name = [] then default
  else (strippedName name).map fun c => if isAllowedChar c then c else '_'

/-- One node of the decoded message's depth-first `walk()` sequence (the
external parser's `EmailMessage.walk`): whether it is a multipart container,
its content disposition, content type, declared filename, decoded payload
(`None` possible), and textual content for text parts. -/
structure Part where
  isMultipart : Bool
  disposition : Option (List Char)
  contentType : List Char
  filename : Option (List Char)
  payload : Option (List Nat)
  content : List Char
deriving DecidableEq

/-- Extracted header fields and body candidates (the `EmailContent`
dataclass, convert.py lines 20-27). -/
structure EmailContent where
  subject : List Char
  sender : List Char
  toAddr : List Char
  date : List Char
  body_text : List Char
  body_html : List Char
deriving DecidableEq

/-- Attachment record (the `Attachment` dataclass, convert.py lines 30-35);
`saved_path` is the component path of the written file. -/
structure AttachRec where
  filename : List Char
  content_type : List Char
  size : Nat
  saved_path : List (List Char)
deriving DecidableEq

/-- The `text/plain` content type. -/
def ctPlain : List Char := "text/plain".toList

/-- The `text/html` content type. -/
def ctHtml : List Char := "text/html".toList

/-- The `attachment` disposition. -/
def dispAttach : List Char := "attachment".toList

/-- The `inline` disposition. -/
def dispInline : List Char := "inline".toList

/-- Is the part's declared disposition `attachment`? -/
def isAttachmentDisp (p : Part) : Bool :=
  p.disposition = some dispAttach

/-- The scanning loop of `_get_body_parts` over a multipart walk
(convert.py lines 56-65): skip `attachment`-disposition parts; the first
`text/plain` part fills the plain accumulator and the first `text/html`
part the html accumulator; accumulators, once set, are never replaced. -/
def bodyScan : List Part → Option (List Char) → Option (List Char) →
    Option (List Char) × Option (List Char)
  | [], t, h => (t, h)
  | p :: ps, t, h =>
    if isAttachmentDisp p then bodyScan ps t h
    else if p.contentType = ctPlain && t.isNone then
      bodyScan ps (some p.content) h
    else if p.contentType = ctHtml && h.isNone then
      bodyScan ps t (some p.content)
    else bodyScan ps t h

/-- Python truthiness of the optional candidate: `None` and `""` are
falsy. -/
def pyTruthyStr : Option (List Char) → Bool
  | none => false
  | some s => !s.isEmpty

/-- `_get_body_parts` on a multipart message (convert.py lines 54-69):
the stripped first candidates, empty when a candidate is missing or
empty. -/
def get_body_parts_multipart (parts : List Part) : List Char × List Char :=
  let th := bodyScan parts none none
  (if pyTruthyStr th.1 then pyStrip (th.1.getD []) else [],
   if pyTruthyStr th.2 then pyStrip (th.2.getD []) else [])

/-- Body resolution of the direct-layout path (convert.py lines 258-260):
use the plain-text body when non-empty, otherwise flatten the HTML body
when present.  `flatten` stands for `_extract_text_from_html`, whose HTML
parsing lives in the external BeautifulSoup collaborator. -/
def resolveBody (flatten : List Char → List Char) (c : EmailContent) : List Char :=
  if c.body_text.isEmpty then
    (if c.body_html.isEmpty then c.body_text else flatten c.body_html)
  else c.body_text

/-! ### The direct-layout canvas

reportlab geometry: `inch = 72` points, `letter` page, left margin 1 inch,
top cursor `10.5 * inch = 756`, `line_height = 14`, bottom threshold
`1 * inch = 72`, body start `756 - 3*14 - 14*1.5 = 693`.  Every reachable
coordinate is an integer and `14 * 1.5 = 21` is exact in binary floats, so
`Int` coordinates model the source's float arithmetic exactly. -/

/-- The bottom threshold `1 * inch`. -/
def bottomYPt : Int := 72

/-- The top cursor position `10.5 * inch`. -/
def topYPt : Int := 756

/-- `line_height` (convert.py line 243). -/
def lineHeightPt : Int := 14

/-- State of the reportlab canvas as the direct-layout path observes it:
the current page number (starting at 1, incremented by `showPage`) and the
drawn strings as `(page, y, text)` triples in drawing order. -/
structure DrawState where
  page : Nat
  drawn : List (Nat × Int × List Char)
deriving DecidableEq

/-- `c.drawString(x, y, text)`: record the line on the current page (the x
coordinate is the fixed left margin throughout and is not modelled). -/
def drawString (st : DrawState) (y : Int) (text : List Char) : DrawState :=
  { st with drawn := st.drawn ++ [(st.page, y, text)] }

/-- `c.showPage()`: start a new page. -/
def showPage (st : DrawState) : DrawState :=
  { st with page := st.page + 1 }

/-- Body of the wrapped-line loop of `_draw_paragraphs` (convert.py lines
208-213) and of the attachment-listing loop (lines 273-278): if the cursor
has reached the bottom threshold, start a new page and reset it to the top;
draw the line; advance the cursor one line height. -/
def drawLineStep (acc : DrawState × Int) (text : List Char) : DrawState × Int :=
  if acc.2 ≤ bottomYPt then
    (drawString (showPage acc.1) topYPt text, topYPt - lineHeightPt)
  else
    (drawString acc.1 acc.2 text, acc.2 - lineHeightPt)

/-- Draw wrapped lines in order. -/
def drawLines (acc : DrawState × Int) (ls : List (List Char)) : DrawState × Int :=
  ls.foldl drawLineStep acc

/-- One iteration of the paragraph loop of `_draw_paragraphs` (convert.py
lines 204-213): a paragraph that strips to nothing advances the cursor one
line height and draws nothing; any other paragraph draws its wrapped
lines. -/
def drawPara (maxWidth : Nat) (acc : DrawState × Int) (para : List Char) :
    DrawState × Int :=
  if pyStrip para = [] then (acc.1, acc.2 - lineHeightPt)
  else drawLines acc (wrap_text para maxWidth)

/-- `_draw_paragraphs(c, text, x, y, max_width, line_height)` (convert.py
lines 203-214): iterate over `text.split("\n")`. -/
def draw_paragraphs (st : DrawState) (y : Int) (text : List Char)
    (maxWidth : Nat) : DrawState × Int :=
  (splitOnNl text).foldl (drawPara maxWidth) (st, y)

/-- The four metadata lines drawn at fixed positions on the first page
(convert.py lines 245-253). -/
def headerDrawn (c : EmailContent) : List (Nat × Int × List Char) :=
  [(1, 756, "Subject: ".toList ++ c.subject),
   (1, 742, "From: ".toList ++ c.sender),
   (1, 728, "To: ".toList ++ c.toAddr),
   (1, 714, "Date: ".toList ++ c.date)]

/-- Decimal digit accumulation for `natChars`; the first argument is fuel,
always at least the number being converted, so the fuel never runs out. -/
def natCharsCore : Nat → Nat → List Char → List Char
  | 0, _, acc => acc
  | fuel + 1, n, acc =>
    if n = 0 then acc else natCharsCore fuel (n / 10) (Char.ofNat (48 + n % 10) :: acc)

/-- Decimal digits of a natural number (Python `str(n)`). -/
def natChars (n : Nat) : List Char :=
  if n = 0 then ['0'] else natCharsCore n n []

/-- The attachment-listing line `- <filename> (<content_type>, <size>
bytes)` (convert.py line 272). -/
def attLineText (a : AttachRec) : List Char :=
  "- ".toList ++ a.filename ++ " (".toList ++ a.content_type ++ ", ".toList ++
    natChars a.size ++ " bytes)".toList

/-- The fixed text of the bold attachment-listing header. -/
def attachmentsHeader : List Char := "Attachments:".toList

/-- The attachment listing of `convert_eml_to_pdf` (convert.py lines
265-278): when attachments exist, one line height of gap, the bold header
drawn with no page-break check, another line height, then each attachment's
wrapped listing lines drawn through the page-break check. -/
def drawAttachmentsBlock (atts : List AttachRec) (acc : DrawState × Int) :
    DrawState × Int :=
  if atts.isEmpty then acc
  else
    let y1 := acc.2 - lineHeightPt
    let st1 := drawString acc.1 y1 attachmentsHeader
    atts.foldl (fun a att => drawLines a (wrap_text (attLineText att) 90)) (st1, y1 - lineHeightPt)

/-- The direct-layout rendering of `convert_eml_to_pdf` (convert.py lines
240-280): fixed header block, body paragraphs from `y = 693` at max width
90, then the attachment listing. -/
def directLayout (flatten : List Char → List Char) (c : EmailContent)
    (atts : List AttachRec) : DrawState × Int :=
  let st0 : DrawState := { page := 1, drawn := headerDrawn c }
  drawAttachmentsBlock atts (draw_paragraphs st0 693 (resolveBody flatten c) 90)

/-! ### Filesystem state, attachment persistence, conversion, batch -/

/-- A filesystem path as a list of name components (separators appear only
between components, never inside one). -/
abbrev FsPath := List (List Char)

/-- Contents of a file: attachment payload bytes, or one of the two PDF
outputs — the direct-layout canvas, or the opaque result of the external
rich renderer carrying the inputs handed to it. -/
inductive FileData where
  | bytes (data : List Nat)
  | pdfDirect (doc : DrawState)
  | pdfRich (content : EmailContent) (atts : List AttachRec)
deriving DecidableEq

/-- The filesystem as the program observes it: file contents by path and
the directories created. -/
structure FS where
  files : FsPath → Option FileData
  dirs : List FsPath

/-- `write_bytes` / canvas save: create or overwrite one file. -/
def fsWrite (fs : FS) (p : FsPath) (d : FileData) : FS :=
  { fs with files := fun q => if q = p then some d else fs.files q }

/-- `mkdir(parents=True, exist_ok=True)`. -/
def fsMkdir (fs : FS) (p : FsPath) : FS :=
  { fs with dirs := p :: fs.dirs }

/-- Leaf parts with disposition `attachment` or `inline` are emitted
(convert.py lines 106-110); containers and other dispositions are
skipped. -/
def isEmitted (p : Part) : Bool :=
  !p.isMultipart && (p.disposition = some dispAttach || p.disposition = some dispInline)

/-- `mimetypes.guess_extension` (external stdlib table), modelled on the
content types exercised here; unknown types yield the empty extension. -/
def guess_extension (ctype : List Char) : List Char :=
  if ctype = "text/plain".toList then ".txt".toList
  else if ctype = "text/html".toList then ".html".toList
  else if ctype = "image/png".toList then ".png".toList
  else []

/-- The fallback filename `attachment-<index><ext>` (convert.py line
115). -/
def fallbackName (index : Nat) (ctype : List Char) : List Char :=
  "attachment-".toList ++ natChars index ++ guess_extension ctype

/-- The sanitized filename chosen for an emitted part at fallback index
`index` (convert.py lines 112-115); a missing declared filename degrades to
the empty string. -/
def safeName (index : Nat) (p : Part) : List Char :=
  sanitize_filename (p.filename.getD []) (fallbackName index p.contentType)

/-- The decoded payload (convert.py line 117): `None` degrades to empty
bytes. -/
def partPayload (p : Part) : List Nat := p.payload.getD []

/-- The attachment record built for an emitted part (convert.py lines
121-128). -/
def attachmentRecord (dir : FsPath) (index : Nat) (p : Part) : AttachRec :=
  { filename := safeName index p
    content_type := p.contentType
    size := (partPayload p).length
    saved_path := dir ++ [safeName index p] }

/-- The walk loop of `_save_attachments` (convert.py lines 105-129),
threading the fallback index (starting at 1, incremented once per emitted
part) and the filesystem. -/
def saveAttachmentsLoop (dir : FsPath) : List Part → Nat → FS → List AttachRec × FS
  | [], _, fs => ([], fs)
  | p :: ps, index, fs =>
    if isEmitted p then
      let fs1 := fsWrite fs (dir ++ [safeName index p]) (.bytes (partPayload p))
      let rest := saveAttachmentsLoop dir ps (index + 1) fs1
      (attachmentRecord dir index p :: rest.1, rest.2)
    else
      saveAttachmentsLoop dir ps index fs

/-- `_save_attachments(msg, attachments_dir)` (convert.py lines 100-131):
create the directory, then walk the message writing every emitted part. -/
def save_attachments (parts : List Part) (dir : FsPath) (fs : FS) :
    List AttachRec × FS :=
  saveAttachmentsLoop dir parts 1 (fsMkdir fs dir)

/-- The emitted parts of a walk, in order. -/
def emittedParts (parts : List Part) : List Part := parts.filter isEmitted

/-- The record list of `_save_attachments`, described directly over the
emitted parts with consecutive fallback indices. -/
def recordsSpec (dir : FsPath) (index : Nat) : List Part → List AttachRec
  | [] => []
  | p :: ps => attachmentRecord dir index p :: recordsSpec dir (index + 1) ps

/-- The `(path, payload)` writes of `_save_attachments`, in order, over the
emitted parts. -/
def writesSpec (dir : FsPath) (index : Nat) : List Part → List (FsPath × List Nat)
  | [] => []
  | p :: ps => (dir ++ [safeName index p], partPayload p) :: writesSpec dir (index + 1) ps

/-- Apply a list of byte writes to the filesystem in order. -/
def applyWrites (fs : FS) (ws : List (FsPath × List Nat)) : FS :=
  ws.foldl (fun f w => fsWrite f w.1 (.bytes w.2)) fs

/-- The errors `convert_eml_to_pdf` can raise in this model. -/
inductive ConvErr where
  | fileExists
deriving DecidableEq

/-- The rendered document written at the output path: the opaque
rich-renderer result when that path is taken, otherwise the direct-layout
canvas (convert.py lines 236-280). -/
def convertOutputDoc (useRich : Bool) (flatten : List Char → List Char)
    (c : EmailContent) (atts : List AttachRec) : FileData :=
  if useRich then .pdfRich c atts else .pdfDirect (directLayout flatten c atts).1

/-- `convert_eml_to_pdf` (convert.py lines 217-280) over filesystem state:
the overwrite guard first, then attachment extraction into
`<pdf dir>/<attachments_dirname>/<eml stem>`, creation of the output
directory, and the write of the rendered document at
`<pdf dir>/<pdf_name>`.  `parts` is the decoded message's walk and
`content` its extracted `EmailContent` (byte-level parsing is the external
decoder); `useRich` models rich-renderer availability together with the
`EML2PDF_FORCE_TEXT` override.  Returns the filesystem as left at the point
of return or raise, and the raised error if any. -/
def convert_eml_to_pdf (fs : FS) (parts : List Part) (content : EmailContent)
    (pdf_dir : FsPath) (pdf_name : List Char) (eml_stem : List Char)
    (overwrite extract_attachments : Bool) (attachments_dirname : List Char)
    (useRich : Bool) (flatten : List Char → List Char) : FS × Option ConvErr :=
  let pdf_path := pdf_dir ++ [pdf_name]
  if (fs.files pdf_path).isSome && !overwrite then (fs, some .fileExists)
  else
    let attsFs :=
      if extract_attachments then
        save_attachments parts (pdf_dir ++ [attachments_dirname, eml_stem]) fs
      else ([], fs)
    let fs2 := fsMkdir attsFs.2 pdf_dir
    (fsWrite fs2 pdf_path (convertOutputDoc useRich flatten content attsFs.1), none)

/-- One input message of a batch: the input file's stem and its decoded
walk and extracted content. -/
structure EmlInput where
  stem : List Char
  parts : List Part
  content : EmailContent

/-- The per-batch configuration threaded unchanged through every
conversion. -/
structure ConvCfg where
  output_dir : FsPath
  overwrite : Bool
  extract_attachments : Bool
  attachments_dirname : List Char
  useRich : Bool
  flatten : List Char → List Char

/-- The output path of one batch input: `<output_dir>/<stem>.pdf`
(convert.py lines 305-306). -/
def batchPdfPath (cfg : ConvCfg) (i : EmlInput) : FsPath :=
  cfg.output_dir ++ [i.stem ++ ".pdf".toList]

/-- One iteration of the batch loop (convert.py lines 307-313). -/
def convertOne (cfg : ConvCfg) (fs : FS) (i : EmlInput) : FS × Option ConvErr :=
  convert_eml_to_pdf fs i.parts i.content cfg.output_dir
    (i.stem ++ ".pdf".toList) i.stem cfg.overwrite cfg.extract_attachments
    cfg.attachments_dirname cfg.useRich cfg.flatten

/-- `batch_convert` (convert.py lines 295-315): convert each enumerated
input in order, counting successes; a raised error propagates immediately,
abandoning the remaining inputs. -/
def batch_convert (cfg : ConvCfg) : FS → List EmlInput → FS × Except ConvErr Nat
  | fs, [] => (fs, .ok 0)
  | fs, i :: rest =>
    match convertOne cfg fs i with
    | (fs1, some e) => (fs1, .error e)
    | (fs1, none) =>
      let r := batch_convert cfg fs1 rest
      (r.1, r.2.map (· + 1))

/-- The number of leading batch inputs that convert successfully before the
first failure (all of them when no conversion fails). -/
def succCount (cfg : ConvCfg) : FS → List EmlInput → Nat
  | _, [] => 0
  | fs, i :: rest =>
    match convertOne cfg fs i with
    | (_, some _) => 0
    | (fs1, none) => succCount cfg fs1 rest + 1

/-! ### Input enumeration -/

/-- A filesystem tree as `_iter_eml_files` traverses it. -/
inductive PathNode where
  | file (name : List Char)
  | dir (name : List Char) (children : List PathNode)

/-- The index of the last `.` in a name, if any (Python `str.rfind`). -/
def rfindDotAux : List Char → Nat → Option Nat → Option Nat
  | [], _, best => best
  | c :: cs, i, best => rfindDotAux cs (i + 1) (if c = '.' then some i else best)

/-- `PurePath.suffix`: the extension from the last dot, empty when the dot
is absent, leading, or trailing. -/
def pathSuffix (name : List Char) : List Char :=
  match rfindDotAux name 0 none with
  | some i => if 0 < i ∧ i < name.length - 1 then name.drop i else []
  | none => []

/-- `path.suffix.lower()` (convert.py line 285). -/
def suffixLower (name : List Char) : List Char :=
  (pathSuffix name).map Char.toLower

/-- Does a name match the glob pattern `*.eml` (POSIX `fnmatch`,
case-sensitive): any name that literally ends in `.eml`. -/
def globEmlMatch (name : List Char) : Bool :=
  ".eml".toList.isSuffixOf name

/-- The files matched by the recursive glob `**/*.eml` below a node, in
depth-first order, filtered by `is_file()` (convert.py lines 289-292). -/
def globRecEml : PathNode → List (List Char)
  | .file n => if globEmlMatch n then [n] else []
  | .dir _ ch => (ch.attach.map fun c => globRecEml c.1).flatten
decreasing_by
  have := List.sizeOf_lt_of_mem c.2
  simp only [PathNode.dir.sizeOf_spec]
  omega

/-- `_iter_eml_files(path, recursive)` (convert.py lines 283-292): a single
file is eligible iff its lowercased suffix is `.eml`; a directory is
enumerated through `glob("*.eml")` or `glob("**/*.eml")`, keeping files
only. -/
def iter_eml_files : PathNode → Bool → List (List Char)
  | .file n, _ => if suffixLower n = ".eml".toList then [n] else []
  | .dir _ ch, recursive =>
    if recursive then
      (ch.attach.map fun c => globRecEml c.1).flatten
    else
      ch.filterMap fun c =>
        match c with
        | .file n => if globEmlMatch n then some n else none
        | .dir _ _ => none

/-- The eligibility criterion as the claim words it: the extension matches
`.eml` case-insensitively. -/
def eligibleSpec (name : List Char) : Bool :=
  suffixLower name = ".eml".toList

/-- A node has `name` as the name of a descendant file (the candidates of
recursive directory traversal). -/
inductive HasDescFile : PathNode → List Char → Prop where
  | file (n : List Char) : HasDescFile (.file n) n
  | dir (d : List Char) (ch : List PathNode) (c : PathNode) (n : List Char) :
      c ∈ ch → HasDescFile c n → HasDescFile (.dir d ch) n

/-- The first non-attachment `text/plain` part of a walk, if any (the
claim's reading of the plain candidate). -/
def firstPlain (ps : List Part) : Option (List Char) :=
  (ps.find? fun p => !isAttachmentDisp p && p.contentType = ctPlain).map Part.content

/-- The first non-attachment `text/html` part of a walk, if any (the
claim's reading of the html candidate). -/
def firstHtml (ps : List Part) : Option (List Char) :=
  (ps.find? fun p => !isAttachmentDisp p && p.contentType = ctHtml).map Part.content

/-- The number of text lines one paragraph contributes in
`_draw_paragraphs`: zero for a whitespace-only paragraph, otherwise its
wrapped line count. -/
def paraLineCount (maxWidth : Nat) (para : List Char) : Nat :=
  if pyStrip para = [] then 0 else (wrap_text para maxWidth).length

/-- The total number of body text lines the direct-layout path draws for a
body text. -/
def bodyLineCount (text : List Char) (maxWidth : Nat) : Nat :=
  ((splitOnNl text).map (paraLineCount maxWidth)).sum

/-- A placeholder batch input for out-of-range indexing. -/
def emlInputDefault : EmlInput :=
  { stem := [], parts := [], content := ⟨[], [], [], [], [], []⟩ }

/-- A placeholder attachment record for out-of-range indexing. -/
def attachRecDefault : AttachRec :=
  { filename := [], content_type := [], size := 0, saved_path := [] }

/-- A placeholder part for out-of-range indexing. -/
def partDefault : Part :=
  { isMultipart := false, disposition := none, contentType := [],
    filename := none, payload := none, content := [] }

/-! ### Sample inputs used by closed instances -/

/-- An empty filesystem. -/
def fsEmpty : FS := { files := fun _ => none, dirs := [] }

/-- A sample attachment part declaring the filename `dup.txt` with payload
`[1]`. -/
def partDup1 : Part :=
  { isMultipart := false, disposition := some dispAttach, contentType := ctPlain,
    filename := some "dup.txt".toList, payload := some [1], content := [] }

/-- A second sample attachment part declaring the same filename `dup.txt`
with payload `[2, 3]`. -/
def partDup2 : Part :=
  { isMultipart := false, disposition := some dispAttach, contentType := ctPlain,
    filename := some "dup.txt".toList, payload := some [2, 3], content := [] }

/-- A sample attachment directory path. -/
def dirSample : FsPath := ["out".toList, "attachments".toList, "m".toList]

/-- A sample output path `out/m.pdf`. -/
def pdfPathSample : FsPath := ["out".toList, "m.pdf".toList]

/-- A filesystem already holding a file at `out/m.pdf`. -/
def fsWithPdf : FS :=
  { files := fun p => if p = pdfPathSample then some (.bytes [0]) else none, dirs := [] }

/-- A content whose body is 43 newlines: 44 blank paragraphs, which advance
the cursor without any page-break check. -/
def contentBlank43 : EmailContent :=
  { subject := [], sender := [], toAddr := [], date := [],
    body_text := List.replicate 43 '\n', body_html := [] }

/-- A sample attachment record for the listing block. -/
def attSample : AttachRec :=
  { filename := "a.txt".toList, content_type := ctPlain, size := 1,
    saved_path := [] }

/-- A content whose body is 46 one-word paragraphs — one more line than one
page's capacity of 45. -/
def contentLong : EmailContent :=
  { subject := [], sender := [], toAddr := [], date := [],
    body_text := List.intercalate ['\n'] (List.replicate 46 ['a']), body_html := [] }

/-- A sample batch configuration: output to `out`, overwrite disabled, no
attachment extraction, direct layout. -/
def cfgSample : ConvCfg :=
  { output_dir := ["out".toList], overwrite := false,
    extract_attachments := false, attachments_dirname := "attachments".toList,
    useRich := false, flatten := fun s => s }

/-- A batch input with stem `a` (its output `out/a.pdf` does not yet
exist). -/
def inputA : EmlInput :=
  { stem := "a".toList, parts := [],
    content := ⟨[], [], [], [], [], []⟩ }

/-- A batch input with stem `m`, colliding with the existing `out/m.pdf`. -/
def inputM : EmlInput :=
  { stem := "m".toList, parts := [],
    content := ⟨[], [], [], [], [], []⟩ }

/-- Every word produced by `splitWordsAux` consists of non-whitespace
characters (given that the accumulator does). -/
theorem splitWordsAux_no_space (s : List Char) :
    ∀ acc, (∀ c ∈ acc, isPySpace c = false) →
      ∀ w ∈ splitWordsAux s acc, ∀ c ∈ w, isPySpace c = false := by
  induction s with
  | nil =>
    intro acc hacc w hw
    simp only [splitWordsAux] at hw
    split at hw
    · simp at hw
    · simp at hw
      subst hw
      intro c hc
      exact hacc c (List.mem_reverse.mp hc)
  | cons x xs ih =>
    intro acc hacc w hw
    simp only [splitWordsAux] at hw
    by_cases hx : isPySpace x
    · simp only [hx, if_true] at hw
      split at hw
      · exact ih [] (by simp) w hw
      · rcases List.mem_cons.mp hw with h | h
        · subst h
          intro c hc
          exact hacc c (List.mem_reverse.mp hc)
        · exact ih [] (by simp) w h
    · simp only [hx, if_false] at hw
      refine ih (x :: acc) ?_ w hw
      intro c hc
      rcases List.mem_cons.mp hc with h | h
      · subst h; simpa using hx
      · exact hacc c h

/-- Every word of `splitWords` is whitespace-free; in particular it contains
no space character. -/
theorem splitWords_no_space (s : List Char) :
    ∀ w ∈ splitWords s, ∀ c ∈ w, isPySpace c = false :=
  splitWordsAux_no_space s [] (by simp)

/-- Invariant of the greedy loop: if the pending line is short enough or
space-free, every emitted line is short enough or space-free. -/
theorem wrapAux_bound (width : Nat) (ws : List (List Char)) :
    ∀ line, (line.length ≤ width ∨ ∀ c ∈ line, c ≠ ' ') →
      (∀ w ∈ ws, ∀ c ∈ w, c ≠ ' ') →
      ∀ l ∈ wrapAux width ws line, l.length ≤ width ∨ ∀ c ∈ l, c ≠ ' ' := by
  induction ws with
  | nil =>
    intro line hline _ l hl
    simp only [wrapAux, List.mem_singleton] at hl
    subst hl; exact hline
  | cons w ws ih =>
    intro line hline hws l hl
    simp only [wrapAux] at hl
    split at hl
    · refine ih (line ++ ' ' :: w) (Or.inl ?_) (fun v hv => hws v (by simp [hv])) l hl
      simpa using by omega
    · rcases List.mem_cons.mp hl with h | h
      · subst h; exact hline
      · exact ih w (Or.inr (hws w (by simp))) (fun v hv => hws v (by simp [hv])) l h

/-- C2: every line produced by `_wrap_text` has length at most `width`,
except that a line that exceeds the width contains no space — i.e. it is a
single word emitted whole and unsplit. -/
theorem wrap_text_line_bound (text : List Char) (width : Nat) :
    ∀ l ∈ wrap_text text width, l.length ≤ width ∨ ∀ c ∈ l, c ≠ ' ' := by
  intro l hl
  unfold wrap_text at hl
  cases hsp : splitWords text with
  | nil => simp [hsp] at hl
  | cons w ws =>
    rw [hsp] at hl
    have hno : ∀ v ∈ splitWords text, ∀ c ∈ v, c ≠ ' ' := by
      intro v hv c hc
      have := splitWords_no_space text v hv c hc
      intro h
      subst h
      simp [isPySpace] at this
    refine wrapAux_bound width ws w (Or.inr ?_) ?_ l hl
    · exact hno w (by simp [hsp])
    · intro v hv
      exact hno v (by simp [hsp, hv])

/-- Unfolding `firstPlain` over one part. -/
theorem firstPlain_cons (p : Part) (ps : List Part) :
    firstPlain (p :: ps) =
      if !isAttachmentDisp p && p.contentType = ctPlain
      then some p.content else firstPlain ps := by
  simp only [firstPlain, List.find?_cons]
  rcases h : (!isAttachmentDisp p && decide (p.contentType = ctPlain)) with _ | _ <;>
    simp_all

/-- Unfolding `firstHtml` over one part. -/
theorem firstHtml_cons (p : Part) (ps : List Part) :
    firstHtml (p :: ps) =
      if !isAttachmentDisp p && p.contentType = ctHtml
      then some p.content else firstHtml ps := by
  simp only [firstHtml, List.find?_cons]
  rcases h : (!isAttachmentDisp p && decide (p.contentType = ctHtml)) with _ | _ <;>
    simp_all

/-- C6: the body scan of `_get_body_parts` selects, among the parts whose
disposition is not `attachment`, the first `text/plain` part as the plain
candidate and the first `text/html` part as the html candidate; an
accumulator that is already set is never replaced by a later part. -/
theorem bodyScan_first_wins (ps : List Part) : ∀ (t h : Option (List Char)),
    bodyScan ps t h = (t <|> firstPlain ps, h <|> firstHtml ps) := by
  induction ps with
  | nil =>
    intro t h
    cases t <;> cases h <;> simp [bodyScan, firstPlain, firstHtml]
  | cons p ps ih =>
    intro t h
    rw [firstPlain_cons, firstHtml_cons]
    by_cases hatt : isAttachmentDisp p
    · simp [bodyScan, hatt, ih t h]
    · have hcc : ¬ ctPlain = ctHtml := by decide
      have hcc2 : ¬ ctHtml = ctPlain := by decide
      by_cases hpl : p.contentType = ctPlain
      · have hne : ¬ p.contentType = ctHtml := by rw [hpl]; exact hcc
        cases t with
        | none => simp [bodyScan, hatt, hpl, hne, hcc, ih]
        | some a => simp [bodyScan, hatt, hpl, hne, hcc, ih]
      · by_cases phtml : p.contentType = ctHtml
        · cases h with
          | none => simp [bodyScan, hatt, hpl, phtml, hcc2, ih]
          | some a => simp [bodyScan, hatt, hpl, phtml, hcc2, ih]
        · simp [bodyScan, hatt, hpl, phtml, ih t h]

/-- C8: body resolution of the direct-layout path.  When the extracted
plain-text body is non-empty it is rendered as-is and the HTML body (and
the flattener) is ignored entirely; the HTML Flattener is applied to the
HTML body exactly when the plain-text body is empty and the HTML body is
not. -/
theorem resolveBody_plain_wins (flatten flatten2 : List Char → List Char)
    (c : EmailContent) :
    (c.body_text ≠ [] →
      resolveBody flatten c = c.body_text ∧
      ∀ h : List Char,
        resolveBody flatten2 { c with body_html := h } = c.body_text) ∧
    (c.body_text = [] → c.body_html ≠ [] →
      resolveBody flatten c = flatten c.body_html) ∧
    (c.body_text = [] → c.body_html = [] → resolveBody flatten c = []) := by
  refine ⟨?_, ?_, ?_⟩
  · intro hne
    constructor
    · simp [resolveBody, List.isEmpty_iff, hne]
    · intro h
      simp [resolveBody, List.isEmpty_iff, hne]
  · intro hte hhe
    simp [resolveBody, List.isEmpty_iff, hte, hhe]
  · intro hte hhe
    simp [resolveBody, List.isEmpty_iff, hte, hhe]

/-- Closed instance of `resolveBody_plain_wins` at a concrete content. -/
theorem resolveBody_plain_wins_witness :
    "hi".toList ≠ [] ∧
      resolveBody (fun s => s) ⟨[], [], [], [], "hi".toList, "<p>x</p>".toList⟩ =
        "hi".toList := by
  refine ⟨by decide, ?_⟩
  exact ((resolveBody_plain_wins (fun s => s) (fun s => s)
    ⟨[], [], [], [], "hi".toList, "<p>x</p>".toList⟩).1 (by decide)).1

/-- A whitespace-only string splits into no words. -/
theorem splitWords_of_all_space (s : List Char) :
    (∀ c ∈ s, isPySpace c = true) → splitWords s = [] := by
  unfold splitWords
  induction s with
  | nil => intro _; rfl
  | cons c cs ih =>
    intro hall
    have hc : isPySpace c = true := hall c (by simp)
    simp only [splitWordsAux, hc, if_true]
    exact ih fun x hx => hall x (by simp [hx])

/-- A string strips to nothing exactly when it is all whitespace. -/
theorem pyStrip_eq_nil_iff (s : List Char) :
    pyStrip s = [] ↔ ∀ c ∈ s, isPySpace c = true := by
  unfold pyStrip
  rw [List.reverse_eq_nil_iff, List.dropWhile_eq_nil_iff]
  constructor
  · intro h c hc
    have hmem : c ∈ s.takeWhile isPySpace ++ s.dropWhile isPySpace := by
      rw [List.takeWhile_append_dropWhile]
      exact hc
    rcases List.mem_append.mp hmem with h1 | h1
    · exact List.mem_takeWhile_imp h1
    · exact h c (List.mem_reverse.mpr h1)
  · intro h c hc
    exact h c ((List.dropWhile_sublist isPySpace).mem (List.mem_reverse.mp hc))

/-- The greedy loop always emits at least one line. -/
theorem wrapAux_ne_nil (width : Nat) (ws : List (List Char)) :
    ∀ line, wrapAux width ws line ≠ [] := by
  induction ws with
  | nil => intro line; simp [wrapAux]
  | cons w ws ih =>
    intro line
    simp only [wrapAux]
    split
    · exact ih _
    · simp

/-- A paragraph with at least one word wraps to at least one line. -/
theorem wrap_text_ne_nil (para : List Char) (width : Nat)
    (h : splitWords para ≠ []) : wrap_text para width ≠ [] := by
  unfold wrap_text
  cases hsp : splitWords para with
  | nil => exact absurd hsp h
  | cons w ws => exact wrapAux_ne_nil width ws w

/-- Each `drawLineStep` draws exactly one line. -/
theorem drawLineStep_drawn_length (acc : DrawState × Int) (l : List Char) :
    (drawLineStep acc l).1.drawn.length = acc.1.drawn.length + 1 := by
  unfold drawLineStep drawString showPage
  split <;> simp

/-- `drawLines` draws exactly one line per wrapped line. -/
theorem drawLines_drawn_length (ls : List (List Char)) :
    ∀ acc : DrawState × Int,
      (drawLines acc ls).1.drawn.length = acc.1.drawn.length + ls.length := by
  induction ls with
  | nil => intro acc; simp [drawLines]
  | cons l ls ih =>
    intro acc
    have h1 := drawLineStep_drawn_length acc l
    calc (drawLines acc (l :: ls)).1.drawn.length
        = (drawLines (drawLineStep acc l) ls).1.drawn.length := rfl
      _ = (drawLineStep acc l).1.drawn.length + ls.length := ih _
      _ = acc.1.drawn.length + (l :: ls).length := by rw [h1]; simp; omega

/-- C9: in the paragraph loop of `_draw_paragraphs`, a paragraph that is
only whitespace (including the empty paragraph) draws no text line and
advances the cursor by exactly one line height; a paragraph containing at
least one word draws at least one line. -/
theorem drawPara_blank_and_nonblank (st : DrawState) (y : Int)
    (para : List Char) (maxWidth : Nat) :
    ((∀ c ∈ para, isPySpace c = true) →
      drawPara maxWidth (st, y) para = (st, y - lineHeightPt)) ∧
    (splitWords para ≠ [] →
      st.drawn.length < (drawPara maxWidth (st, y) para).1.drawn.length) := by
  constructor
  · intro hblank
    have h := (pyStrip_eq_nil_iff para).mpr hblank
    simp [drawPara, h]
  · intro hwords
    have hstrip : ¬ pyStrip para = [] := by
      intro h
      exact hwords (splitWords_of_all_space para ((pyStrip_eq_nil_iff para).mp h))
    simp only [drawPara, hstrip, if_false]
    rw [drawLines_drawn_length]
    have h1 := wrap_text_ne_nil para maxWidth hwords
    have h2 : (wrap_text para maxWidth).length ≠ 0 := by
      simpa [List.length_eq_zero] using h1
    have h3 : ((st, y) : DrawState × Int).1.drawn.length = st.drawn.length := rfl
    omega

/-- Closed instance of `drawPara_blank_and_nonblank`: the blank paragraph
`" "` only advances the cursor; the paragraph `"hi"` draws a line. -/
theorem drawPara_blank_and_nonblank_witness :
    (drawPara 90 (⟨1, []⟩, 693) " ".toList = (⟨1, []⟩, 693 - lineHeightPt)) ∧
      (⟨1, ([] : List (Nat × Int × List Char))⟩ : DrawState).drawn.length <
        (drawPara 90 ((⟨1, []⟩ : DrawState), (693 : Int)) "hi".toList).1.drawn.length := by
  constructor
  · exact (drawPara_blank_and_nonblank ⟨1, []⟩ 693 " ".toList 90).1 (by decide)
  · exact (drawPara_blank_and_nonblank ⟨1, []⟩ 693 "hi".toList 90).2 (by decide)

/-- Every character `subRunsAux` outputs is in the allowed class. -/
theorem subRunsAux_allowed (s : List Char) :
    ∀ flag, ∀ c ∈ subRunsAux flag s, isAllowedChar c = true := by
  induction s with
  | nil => intro flag c hc; simp [subRunsAux] at hc
  | cons x xs ih =>
    intro flag c hc
    by_cases hx : isAllowedChar x
    · rw [subRunsAux, if_pos hx] at hc
      rcases List.mem_cons.mp hc with h | h
      · subst h; exact hx
      · exact ih false c h
    · rw [subRunsAux, if_neg hx] at hc
      cases flag with
      | true =>
        rw [if_pos rfl] at hc
        exact ih true c hc
      | false =>
        rw [if_neg (by simp)] at hc
        rcases List.mem_cons.mp hc with h | h
        · subst h; decide
        · exact ih true c h

/-- Every character `subDisallowedRuns` outputs is in the allowed class. -/
theorem subDisallowedRuns_allowed (s : List Char) :
    ∀ c ∈ subDisallowedRuns s, isAllowedChar c = true :=
  fun c hc => subRunsAux_allowed s false c hc

/-- `subDisallowedRuns` passes an all-allowed block through unchanged. -/
theorem subDisallowedRuns_append_allowed (a : List Char) :
    ∀ t, (∀ c ∈ a, isAllowedChar c = true) →
      subDisallowedRuns (a ++ t) = a ++ subDisallowedRuns t := by
  unfold subDisallowedRuns
  induction a with
  | nil => intro t _; rfl
  | cons c cs ih =>
    intro t hall
    have hc : isAllowedChar c = true := hall c (by simp)
    rw [List.cons_append, subRunsAux, if_pos hc, ih t fun x hx => hall x (by simp [hx])]
    rfl

/-- Inside a disallowed run, the scan skips the rest of the run and resumes
cleanly at the following allowed character (or at the end). -/
theorem subRunsAux_true_skip (rest : List Char) :
    ∀ b, (∀ c ∈ rest, isAllowedChar c = false) →
      (∀ hb ∈ b.head?, isAllowedChar hb = true) →
      subRunsAux true (rest ++ b) = subRunsAux false b := by
  induction rest with
  | nil =>
    intro b _ hhead
    cases b with
    | nil => rfl
    | cons x xs =>
      have hx : isAllowedChar x = true := hhead x rfl
      rw [List.nil_append, subRunsAux, if_pos hx, subRunsAux, if_pos hx]
  | cons c cs ih =>
    intro b hall hhead
    have hc : isAllowedChar c = false := hall c (by simp)
    rw [List.cons_append, subRunsAux, if_neg (by simp [hc]), if_pos rfl]
    exact ih b (fun x hx => hall x (by simp [hx])) hhead

/-- A nonempty maximal run of disallowed characters collapses to a single
underscore. -/
theorem subDisallowedRuns_run_collapse (bad b : List Char)
    (hne : bad ≠ []) (hbad : ∀ c ∈ bad, isAllowedChar c = false)
    (hhead : ∀ hb ∈ b.head?, isAllowedChar hb = true) :
    subDisallowedRuns (bad ++ b) = '_' :: subDisallowedRuns b := by
  cases bad with
  | nil => exact absurd rfl hne
  | cons c cs =>
    have hc : isAllowedChar c = false := hbad c (by simp)
    unfold subDisallowedRuns
    rw [List.cons_append, subRunsAux, if_neg (by simp [hc]), if_neg (by simp)]
    rw [subRunsAux_true_skip cs b (fun x hx => hbad x (by simp [hx])) hhead]

/-- Digits emitted by `natCharsCore` are in the allowed class. -/
theorem natCharsCore_allowed (fuel : Nat) : ∀ (n : Nat) (acc : List Char),
    (∀ c ∈ acc, isAllowedChar c = true) →
    ∀ c ∈ natCharsCore fuel n acc, isAllowedChar c = true := by
  induction fuel with
  | zero => intro n acc hacc c hc; exact hacc c hc
  | succ fuel ih =>
    intro n acc hacc c hc
    rw [natCharsCore] at hc
    split at hc
    · exact hacc c hc
    · refine ih (n / 10) _ ?_ c hc
      intro x hx
      rcases List.mem_cons.mp hx with h | h
      · subst h
        have hm : n % 10 < 10 := Nat.mod_lt _ (by omega)
        set m := n % 10 with hmdef
        interval_cases m <;> decide
      · exact hacc x h

/-- All characters of `natChars` are in the allowed class. -/
theorem natChars_allowed (n : Nat) : ∀ c ∈ natChars n, isAllowedChar c = true := by
  unfold natChars
  split
  · intro c hc
    simp only [List.mem_singleton] at hc
    subst hc; decide
  · exact natCharsCore_allowed n n [] (by simp)

/-- All characters of the fallback `attachment-<n><ext>` name are in the
allowed class. -/
theorem fallbackName_allowed (index : Nat) (ctype : List Char) :
    ∀ c ∈ fallbackName index ctype, isAllowedChar c = true := by
  intro c hc
  unfold fallbackName at hc
  rcases List.mem_append.mp hc with h | h
  · rcases List.mem_append.mp h with h1 | h1
    · have hlit : ∀ x ∈ "attachment-".toList, isAllowedChar x = true := by decide
      exact hlit c h1
    · exact natChars_allowed index c h1
  · unfold guess_extension at h
    split at h
    · have hlit : ∀ x ∈ ".txt".toList, isAllowedChar x = true := by decide
      exact hlit c h
    · split at h
      · have hlit : ∀ x ∈ ".html".toList, isAllowedChar x = true := by decide
        exact hlit c h
      · split at h
        · have hlit : ∀ x ∈ ".png".toList, isAllowedChar x = true := by decide
          exact hlit c h
        · simp at h

/-- All characters of the safe filename finally used for a part are in the
allowed class, whichever branch of `_sanitize_filename` produced it. -/
theorem safeName_allowed (index : Nat) (p : Part) :
    ∀ c ∈ safeName index p, isAllowedChar c = true := by
  intro c hc
  unfold safeName sanitize_filename at hc
  split at hc
  · exact fallbackName_allowed index p.contentType c hc
  · exact subDisallowedRuns_allowed _ c hc

/-- The records of the attachment walk loop, described over the emitted
parts. -/
theorem saveAttachmentsLoop_records (dir : FsPath) (parts : List Part) :
    ∀ index fs, (saveAttachmentsLoop dir parts index fs).1 =
      recordsSpec dir index (emittedParts parts) := by
  induction parts with
  | nil => intro index fs; rfl
  | cons p ps ih =>
    intro index fs
    by_cases hp : isEmitted p
    · simp only [saveAttachmentsLoop, hp, if_true, emittedParts, List.filter_cons_of_pos hp,
        recordsSpec]
      rw [← emittedParts]
      exact congrArg _ (ih _ _)
    · simp only [saveAttachmentsLoop, hp, if_false, emittedParts, List.filter_cons_of_neg hp]
      rw [← emittedParts]
      exact ih _ _

/-- The filesystem after the attachment walk loop is the sequence of writes
applied in walk order. -/
theorem saveAttachmentsLoop_files (dir : FsPath) (parts : List Part) :
    ∀ index fs, (saveAttachmentsLoop dir parts index fs).2 =
      applyWrites fs (writesSpec dir index (emittedParts parts)) := by
  induction parts with
  | nil => intro index fs; rfl
  | cons p ps ih =>
    intro index fs
    by_cases hp : isEmitted p
    · simp only [saveAttachmentsLoop, hp, if_true, emittedParts, List.filter_cons_of_pos hp,
        writesSpec, applyWrites, List.foldl_cons]
      rw [← emittedParts, ← applyWrites]
      exact ih _ _
    · simp only [saveAttachmentsLoop, hp, if_false, emittedParts, List.filter_cons_of_neg hp]
      rw [← emittedParts]
      exact ih _ _

/-- `recordsSpec` produces one record per part. -/
theorem recordsSpec_length (dir : FsPath) (ps : List Part) :
    ∀ index, (recordsSpec dir index ps).length = ps.length := by
  induction ps with
  | nil => intro _; rfl
  | cons p ps ih => intro index; simp [recordsSpec, ih]

/-- Indexing into `recordsSpec`: the `k`-th record carries fallback index
`index + k`. -/
theorem recordsSpec_getD (dir : FsPath) (ps : List Part) :
    ∀ index k, k < ps.length →
      (recordsSpec dir index ps).getD k attachRecDefault =
        attachmentRecord dir (index + k) (ps.getD k partDefault) := by
  induction ps with
  | nil => intro index k hk; simp at hk
  | cons p ps ih =>
    intro index k hk
    cases k with
    | zero => simp [recordsSpec]
    | succ k =>
      simp only [recordsSpec, List.getD_cons_succ]
      rw [ih (index + 1) k (by simpa using Nat.lt_of_succ_lt_succ hk)]
      congr 1
      omega

/-- Every record of `recordsSpec` is saved at `dir ++ [filename]`. -/
theorem recordsSpec_saved_path (dir : FsPath) (ps : List Part) :
    ∀ index r, r ∈ recordsSpec dir index ps → r.saved_path = dir ++ [r.filename] := by
  induction ps with
  | nil => intro index r hr; simp [recordsSpec] at hr
  | cons p ps ih =>
    intro index r hr
    rcases List.mem_cons.mp hr with h | h
    · subst h; rfl
    · exact ih _ r h

/-- `applyWrites` is last-write-wins: the contents at a path are the last
write to that path, or the prior contents when no write touches it. -/
theorem applyWrites_last_wins (ws : List (FsPath × List Nat)) :
    ∀ fs p, (applyWrites fs ws).files p =
      ((ws.reverse.find? fun w => w.1 = p).elim (fs.files p) fun w =>
        some (.bytes w.2)) := by
  induction ws with
  | nil => intro fs p; rfl
  | cons w ws ih =>
    intro fs p
    have step : applyWrites fs (w :: ws) = applyWrites (fsWrite fs w.1 (.bytes w.2)) ws := rfl
    rw [step, ih, List.reverse_cons, List.find?_append]
    cases hfind : ws.reverse.find? fun v => v.1 = p with
    | some v => simp [Option.or, hfind]
    | none =>
      simp only [hfind, Option.none_or]
      by_cases hw : w.1 = p
      · simp [List.find?, hw, fsWrite]
      · have hw2 : ¬ p = w.1 := fun hh => hw hh.symm
        simp [List.find?, hw, hw2, fsWrite]

/-- C3 (amended): filename sanitization.  A name that strips to empty falls
back to the supplied default; otherwise every character of the sanitized
name is in `[A-Za-z0-9._-]`, with each maximal *run* of characters outside
the class replaced by a single underscore (not one underscore per
character).  The safe name used for a part therefore contains neither `/`
nor `\`, so `<directory>/<safe filename>` stays a single component inside
the destination directory; and a part whose declared name strips to empty
is named `attachment-<n><ext>` where `n` is its 1-based index over emitted
attachments. -/
theorem sanitize_filename_properties :
    (∀ name d, pyStrip name = [] → sanitize_filename name d = d) ∧
    (∀ name d, pyStrip name ≠ [] →
      ∀ c ∈ sanitize_filename name d, isAllowedChar c = true) ∧
    (∀ a bad b, (∀ c ∈ a, isAllowedChar c = true) → bad ≠ [] →
      (∀ c ∈ bad, isAllowedChar c = false) →
      (∀ hb ∈ b.head?, isAllowedChar hb = true) →
      subDisallowedRuns (a ++ bad ++ b) = a ++ '_' :: subDisallowedRuns b) ∧
    (∀ index p, '/' ∉ safeName index p ∧ '\\' ∉ safeName index p) ∧
    (∀ index p, pyStrip (p.filename.getD []) = [] →
      safeName index p = fallbackName index p.contentType) ∧
    (∀ parts dir fs k, k < (emittedParts parts).length →
      (save_attachments parts dir fs).1.getD k attachRecDefault =
        attachmentRecord dir (k + 1) ((emittedParts parts).getD k partDefault)) := by
  refine ⟨?_, ?_, ?_, ?_, ?_, ?_⟩
  · intro name d h
    simp [sanitize_filename, strippedName, replaceChar, h]
  · intro name d h c hc
    have hne : strippedName name ≠ [] := by
      simp only [strippedName, replaceChar, ne_eq, List.map_eq_nil_iff]
      exact h
    unfold sanitize_filename at hc
    rw [if_neg hne] at hc
    exact subDisallowedRuns_allowed _ c hc
  · intro a bad b ha hne hbad hhead
    rw [List.append_assoc, subDisallowedRuns_append_allowed a (bad ++ b) ha,
      subDisallowedRuns_run_collapse bad b hne hbad hhead]
  · intro index p
    constructor
    · intro h
      have := safeName_allowed index p _ h
      revert this; decide
    · intro h
      have := safeName_allowed index p _ h
      revert this; decide
  · intro index p h
    simp [safeName, sanitize_filename, strippedName, replaceChar, h]
  · intro parts dir fs k hk
    unfold save_attachments
    rw [saveAttachmentsLoop_records, recordsSpec_getD dir _ 1 k (by simpa using hk)]
    congr 1
    omega

/-- Counterexample to C3 as stated: on the name `a??b` the code collapses
the run `??` to a single underscore, not one underscore per character. -/
theorem sanitize_filename_run_counterexample :
    sanitize_filename "a??b".toList "x".toList = "a_b".toList ∧
      sanitize_filename_perchar_spec "a??b".toList "x".toList = "a__b".toList ∧
      sanitize_filename "a??b".toList "x".toList ≠
        sanitize_filename_perchar_spec "a??b".toList "x".toList := by
  refine ⟨by decide, by decide, by decide⟩

/-- Closed instance of `sanitize_filename_properties`: the stripped-empty
fallback and the run-collapse clause at concrete inputs. -/
theorem sanitize_filename_properties_witness :
    sanitize_filename "  ".toList "attachment-1.txt".toList =
        "attachment-1.txt".toList ∧
      subDisallowedRuns ("ab".toList ++ "??".toList ++ "cd".toList) =
        "ab".toList ++ '_' :: subDisallowedRuns "cd".toList := by
  constructor
  · exact sanitize_filename_properties.1 "  ".toList "attachment-1.txt".toList (by decide)
  · exact sanitize_filename_properties.2.2.1 "ab".toList "??".toList "cd".toList
      (by decide) (by decide) (by decide) (by decide)

/-- C10: when several emitted parts sanitize to the same filename they are
written to the same saved path, the payload of a later part overwriting the
file of an earlier one (last write wins), while the returned list still
holds one record per emitted part — so distinct files on disk can be fewer
than returned records. -/
theorem save_attachments_duplicate_names (parts : List Part) (dir : FsPath) (fs : FS) :
    (save_attachments parts dir fs).1.length = (emittedParts parts).length ∧
    (∀ r1 ∈ (save_attachments parts dir fs).1, ∀ r2 ∈ (save_attachments parts dir fs).1,
      r1.filename = r2.filename → r1.saved_path = r2.saved_path) ∧
    (∀ p, (save_attachments parts dir fs).2.files p =
      (((writesSpec dir 1 (emittedParts parts)).reverse.find? fun w => w.1 = p).elim
        (fs.files p) fun w => some (.bytes w.2))) := by
  have hrec : (save_attachments parts dir fs).1 = recordsSpec dir 1 (emittedParts parts) :=
    saveAttachmentsLoop_records dir parts 1 (fsMkdir fs dir)
  refine ⟨?_, ?_, ?_⟩
  · rw [hrec, recordsSpec_length]
  · intro r1 h1 r2 h2 hf
    rw [hrec] at h1 h2
    rw [recordsSpec_saved_path dir _ 1 r1 h1, recordsSpec_saved_path dir _ 1 r2 h2, hf]
  · intro p
    have hfiles : (save_attachments parts dir fs).2 =
        applyWrites (fsMkdir fs dir) (writesSpec dir 1 (emittedParts parts)) :=
      saveAttachmentsLoop_files dir parts 1 _
    rw [hfiles, applyWrites_last_wins]
    rfl

/-- Closed instance of `save_attachments_duplicate_names`: two attachment
parts both named `dup.txt` produce two records sharing one saved path, and
the file on disk holds the second payload. -/
theorem save_attachments_duplicate_names_witness :
    (save_attachments [partDup1, partDup2] dirSample fsEmpty).1.length = 2 ∧
      (attachmentRecord dirSample 1 partDup1).saved_path =
        (attachmentRecord dirSample 2 partDup2).saved_path ∧
      (save_attachments [partDup1, partDup2] dirSample fsEmpty).2.files
          (dirSample ++ ["dup.txt".toList]) = some (.bytes [2, 3]) := by
  obtain ⟨h1, h2, h3⟩ :=
    save_attachments_duplicate_names [partDup1, partDup2] dirSample fsEmpty
  refine ⟨h1.trans (by decide), ?_, ?_⟩
  · exact h2 (attachmentRecord dirSample 1 partDup1) (by decide)
      (attachmentRecord dirSample 2 partDup2) (by decide) (by decide)
  · exact (h3 (dirSample ++ ["dup.txt".toList])).trans (by decide)

/-- The recursive glob `**/*.eml` yields exactly the descendant files whose
names literally end in `.eml`. -/
theorem globRecEml_mem (node : PathNode) : ∀ name,
    name ∈ globRecEml node ↔ (HasDescFile node name ∧ globEmlMatch name = true) := by
  induction node using globRecEml.induct with
  | case1 n hm =>
    intro name
    rw [globRecEml, if_pos hm]
    simp only [List.mem_singleton]
    constructor
    · intro h; subst h; exact ⟨HasDescFile.file name, hm⟩
    · rintro ⟨hd, -⟩; cases hd; rfl
  | case2 n hm =>
    intro name
    rw [globRecEml, if_neg hm]
    simp only [List.not_mem_nil, false_iff]
    rintro ⟨hd, hmatch⟩
    cases hd
    exact hm hmatch
  | case3 d ch ih =>
    intro name
    rw [globRecEml]
    simp only [List.mem_flatten, List.mem_map]
    constructor
    · rintro ⟨l, ⟨c, -, rfl⟩, hname⟩
      obtain ⟨hdesc, hm⟩ := (ih c name).mp hname
      exact ⟨HasDescFile.dir d ch c.1 name c.2 hdesc, hm⟩
    · rintro ⟨hdesc, hm⟩
      cases hdesc with
      | dir _ _ c _ hc hd =>
        exact ⟨globRecEml c, ⟨⟨c, hc⟩, List.mem_attach _ _, rfl⟩,
          (ih ⟨c, hc⟩ name).mpr ⟨hd, hm⟩⟩

/-- Counterexample to C5 as stated: a file named `A.EML` is eligible when
given directly (its lowercased suffix is `.eml`), but directory enumeration
uses the literal, case-sensitive glob `*.eml` and does not yield it. -/
theorem iter_eml_files_case_counterexample :
    eligibleSpec "A.EML".toList = true ∧
      iter_eml_files (.file "A.EML".toList) false = ["A.EML".toList] ∧
      iter_eml_files (.dir "d".toList [.file "A.EML".toList]) false = [] := by
  refine ⟨by decide, by decide, by decide⟩

/-- C5 (amended): a single input file is eligible iff its extension matches
`.eml` case-insensitively; a directory input enumerates exactly the
(direct, or with the recursion flag all descendant) files whose names
literally end in `.eml` — a case-sensitive criterion, with non-file matches
ignored. -/
theorem iter_eml_files_eligibility :
    (∀ fname r name, name ∈ iter_eml_files (.file fname) r ↔
      (name = fname ∧ eligibleSpec fname = true)) ∧
    (∀ d ch name, name ∈ iter_eml_files (.dir d ch) false ↔
      (PathNode.file name ∈ ch ∧ globEmlMatch name = true)) ∧
    (∀ d ch name, name ∈ iter_eml_files (.dir d ch) true ↔
      ((∃ c ∈ ch, HasDescFile c name) ∧ globEmlMatch name = true)) := by
  refine ⟨?_, ?_, ?_⟩
  · intro fname r name
    by_cases h : suffixLower fname = ['.', 'e', 'm', 'l']
    · simp [iter_eml_files, eligibleSpec, h]
    · simp [iter_eml_files, eligibleSpec, h]
  · intro d ch name
    simp only [iter_eml_files, Bool.false_eq_true, if_false, List.mem_filterMap]
    constructor
    · rintro ⟨c, hc, hsome⟩
      cases c with
      | file n =>
        have hsome2 : (if globEmlMatch n = true then some n else none) = some name := hsome
        split at hsome2
        · obtain rfl := Option.some.inj hsome2
          exact ⟨hc, by assumption⟩
        · exact absurd hsome2 (by simp)
      | dir d2 ch2 =>
        have hsome2 : (none : Option (List Char)) = some name := hsome
        exact absurd hsome2 (by simp)
    · rintro ⟨hmem, hm⟩
      exact ⟨.file name, hmem, by simp [hm]⟩
  · intro d ch name
    simp only [iter_eml_files, if_true, List.mem_flatten, List.mem_map]
    constructor
    · rintro ⟨l, ⟨c, -, rfl⟩, hname⟩
      obtain ⟨hdesc, hm⟩ := (globRecEml_mem c.1 name).mp hname
      exact ⟨⟨c.1, c.2, hdesc⟩, hm⟩
    · rintro ⟨⟨c, hc, hdesc⟩, hm⟩
      exact ⟨globRecEml c, ⟨⟨c, hc⟩, List.mem_attach _ _, rfl⟩,
        (globRecEml_mem c name).mpr ⟨hdesc, hm⟩⟩

/-- Closed instance of `iter_eml_files_eligibility`: a lowercase `.eml`
file is enumerated directly in a directory and, with recursion, from a
subdirectory. -/
theorem iter_eml_files_eligibility_witness :
    "x.eml".toList ∈
        iter_eml_files (.dir "d".toList [.file "x.eml".toList]) false ∧
      "x.eml".toList ∈
        iter_eml_files
          (.dir "d".toList [.dir "s".toList [.file "x.eml".toList]]) true := by
  constructor
  · exact (iter_eml_files_eligibility.2.1 "d".toList [.file "x.eml".toList]
      "x.eml".toList).mpr ⟨by simp, by decide⟩
  · exact (iter_eml_files_eligibility.2.2 "d".toList
      [.dir "s".toList [.file "x.eml".toList]] "x.eml".toList).mpr
      ⟨⟨.dir "s".toList [.file "x.eml".toList], by simp,
        HasDescFile.dir _ _ (.file "x.eml".toList) _ (by simp)
          (HasDescFile.file _)⟩, by decide⟩

/-- Closed instance of `wrap_text_line_bound` at width 3 on `"ab cd"`. -/
theorem wrap_text_line_bound_witness :
    ['a', 'b'] ∈ wrap_text "ab cd".toList 3 ∧
      (['a', 'b'].length ≤ 3 ∨ ∀ c ∈ ['a', 'b'], c ≠ ' ') :=
  ⟨by decide, wrap_text_line_bound "ab cd".toList 3 ['a', 'b'] (by decide)⟩

/-- C4: the overwrite guard of `convert_eml_to_pdf`.  When the output path
already holds a file and overwrite is disabled, the conversion raises
`FileExistsError` first, returning the filesystem exactly as it was — the
existing file unmodified and no attachment file or directory created.  With
overwrite enabled the conversion succeeds and the output path holds the
newly rendered document. -/
theorem convert_overwrite_guard (fs : FS) (parts : List Part)
    (content : EmailContent) (pdf_dir : FsPath) (pdf_name : List Char)
    (eml_stem : List Char) (ea : Bool) (adn : List Char) (useRich : Bool)
    (flatten : List Char → List Char) :
    ((fs.files (pdf_dir ++ [pdf_name])).isSome = true →
      convert_eml_to_pdf fs parts content pdf_dir pdf_name eml_stem false ea
          adn useRich flatten = (fs, some .fileExists)) ∧
    ((convert_eml_to_pdf fs parts content pdf_dir pdf_name eml_stem true ea
          adn useRich flatten).2 = none ∧
      (convert_eml_to_pdf fs parts content pdf_dir pdf_name eml_stem true ea
            adn useRich flatten).1.files (pdf_dir ++ [pdf_name]) =
        some (convertOutputDoc useRich flatten content
          (if ea then
            (save_attachments parts (pdf_dir ++ [adn, eml_stem]) fs).1
          else []))) := by
  constructor
  · intro h
    simp [convert_eml_to_pdf, h]
  · constructor
    · simp [convert_eml_to_pdf]
    · simp only [convert_eml_to_pdf, Bool.not_true, Bool.and_false,
        Bool.false_eq_true, if_false, fsWrite, fsMkdir, if_pos rfl]
      by_cases hea : ea
      · simp [hea]
      · simp [hea]

/-- Closed instance of `convert_overwrite_guard`: converting onto the
existing `out/m.pdf` without overwrite returns the untouched filesystem and
the `FileExistsError`. -/
theorem convert_overwrite_guard_witness :
    (fsWithPdf.files (["out".toList] ++ ["m.pdf".toList])).isSome = true ∧
      convert_eml_to_pdf fsWithPdf [] ⟨[], [], [], [], [], []⟩ ["out".toList]
          "m.pdf".toList "m".toList false true "attachments".toList false
          (fun s => s) = (fsWithPdf, some .fileExists) :=
  ⟨by decide,
    (convert_overwrite_guard fsWithPdf [] ⟨[], [], [], [], [], []⟩
      ["out".toList] "m.pdf".toList "m".toList true "attachments".toList
      false (fun s => s)).1 (by decide)⟩

/-- `fsWrite` never removes a file. -/
theorem fsWrite_preserves_isSome (fs : FS) (q : FsPath) (d : FileData)
    (p : FsPath) (h : (fs.files p).isSome = true) :
    ((fsWrite fs q d).files p).isSome = true := by
  unfold fsWrite
  by_cases hq : p = q
  · simp [hq]
  · simpa [hq] using h

/-- `applyWrites` never removes a file. -/
theorem applyWrites_preserves_isSome (ws : List (FsPath × List Nat)) :
    ∀ fs p, (fs.files p).isSome = true →
      ((applyWrites fs ws).files p).isSome = true := by
  induction ws with
  | nil => intro fs p h; exact h
  | cons w ws ih =>
    intro fs p h
    exact ih _ p (fsWrite_preserves_isSome fs w.1 (.bytes w.2) p h)

/-- The unfolded shape of one batch conversion: the guard, then attachment
extraction, directory creation and the document write. -/
theorem convertOne_eq (cfg : ConvCfg) (fs : FS) (i : EmlInput) :
    convertOne cfg fs i =
      if ((fs.files (batchPdfPath cfg i)).isSome && !cfg.overwrite) = true
      then (fs, some .fileExists)
      else
        (fsWrite
          (fsMkdir (if cfg.extract_attachments then
              save_attachments i.parts
                (cfg.output_dir ++ [cfg.attachments_dirname, i.stem]) fs
            else ([], fs)).2 cfg.output_dir)
          (batchPdfPath cfg i)
          (convertOutputDoc cfg.useRich cfg.flatten i.content
            (if cfg.extract_attachments then
              save_attachments i.parts
                (cfg.output_dir ++ [cfg.attachments_dirname, i.stem]) fs
            else ([], fs)).1), none) := rfl

/-- A single conversion never removes a file. -/
theorem convertOne_preserves_isSome (cfg : ConvCfg) (fs : FS) (i : EmlInput)
    (p : FsPath) (h : (fs.files p).isSome = true) :
    ((convertOne cfg fs i).1.files p).isSome = true := by
  by_cases hg : ((fs.files (batchPdfPath cfg i)).isSome && !cfg.overwrite) = true
  · rw [convertOne_eq, if_pos hg]
    exact h
  · rw [convertOne_eq, if_neg hg]
    refine fsWrite_preserves_isSome _ _ _ p ?_
    by_cases hea : cfg.extract_attachments = true
    · rw [if_pos hea]
      show ((save_attachments _ _ fs).2.files p).isSome = true
      rw [save_attachments, saveAttachmentsLoop_files]
      exact applyWrites_preserves_isSome _ _ p h
    · rw [if_neg hea]
      exact h

/-- A failing conversion leaves the filesystem exactly as it was, and the
only failure is the existing-output precondition. -/
theorem convertOne_error_unchanged (cfg : ConvCfg) (fs : FS) (i : EmlInput)
    (e : ConvErr) (h : (convertOne cfg fs i).2 = some e) :
    (convertOne cfg fs i).1 = fs ∧ e = .fileExists := by
  by_cases hg : ((fs.files (batchPdfPath cfg i)).isSome && !cfg.overwrite) = true
  · rw [convertOne_eq, if_pos hg] at h ⊢
    refine ⟨rfl, ?_⟩
    have := Option.some.inj h
    exact this.symm
  · rw [convertOne_eq, if_neg hg] at h
    simp at h

/-- A successful conversion leaves a file at its own output path. -/
theorem convertOne_writes_pdf (cfg : ConvCfg) (fs : FS) (i : EmlInput)
    (h : (convertOne cfg fs i).2 = none) :
    ((convertOne cfg fs i).1.files (batchPdfPath cfg i)).isSome = true := by
  by_cases hg : ((fs.files (batchPdfPath cfg i)).isSome && !cfg.overwrite) = true
  · rw [convertOne_eq, if_pos hg] at h
    simp at h
  · rw [convertOne_eq, if_neg hg]
    simp [fsWrite]

/-- The batch loop never removes a file. -/
theorem batch_convert_preserves_isSome (cfg : ConvCfg) (inputs : List EmlInput) :
    ∀ fs p, (fs.files p).isSome = true →
      ((batch_convert cfg fs inputs).1.files p).isSome = true := by
  induction inputs with
  | nil => intro fs p h; exact h
  | cons i rest ih =>
    intro fs p h
    have h1 := convertOne_preserves_isSome cfg fs i p h
    simp only [batch_convert]
    cases hco : convertOne cfg fs i with
    | mk fs1 oe =>
      rw [hco] at h1
      cases oe with
      | some e => exact h1
      | none => exact ih fs1 p h1

/-- C7: the batch aborts at the first failing conversion, propagating that
failure: writing `k` for the number of leading inputs that convert
successfully, an erroring batch has `k` strictly below the input count, the
first `k` inputs convert with result `.ok k`, input `k` fails on the state
those conversions produced without changing it, the final state is exactly
that state (no continuation over the remaining inputs), and each of the `k`
earlier outputs is still on disk. -/
theorem batch_convert_fail_fast (cfg : ConvCfg) :
    ∀ (fs fs2 : FS) (inputs : List EmlInput) (e : ConvErr),
      batch_convert cfg fs inputs = (fs2, .error e) →
      succCount cfg fs inputs < inputs.length ∧
      batch_convert cfg fs (inputs.take (succCount cfg fs inputs)) =
        ((batch_convert cfg fs (inputs.take (succCount cfg fs inputs))).1,
          .ok (succCount cfg fs inputs)) ∧
      convertOne cfg
          (batch_convert cfg fs (inputs.take (succCount cfg fs inputs))).1
          (inputs.getD (succCount cfg fs inputs) emlInputDefault) =
        ((batch_convert cfg fs (inputs.take (succCount cfg fs inputs))).1,
          some e) ∧
      fs2 = (batch_convert cfg fs (inputs.take (succCount cfg fs inputs))).1 ∧
      (∀ j < succCount cfg fs inputs,
        (fs2.files (batchPdfPath cfg (inputs.getD j emlInputDefault))).isSome
          = true) := by
  intro fs fs2 inputs
  induction inputs generalizing fs fs2 with
  | nil =>
    intro e h
    simp only [batch_convert] at h
    cases h
  | cons i rest ih =>
    intro e h
    simp only [batch_convert] at h
    cases hco : convertOne cfg fs i with
    | mk fs1 oe =>
      rw [hco] at h
      cases oe with
      | some e0 =>
        injection h with h1 h2
        subst h1
        injection h2 with h3
        subst h3
        obtain ⟨hunch, -⟩ := convertOne_error_unchanged cfg fs i e0 (by rw [hco])
        rw [hco] at hunch
        simp only at hunch
        have hsc : succCount cfg fs (i :: rest) = 0 := by
          simp only [succCount]
          rw [hco]
        rw [hsc]
        simp only [List.take_zero, List.getD_cons_zero, List.length_cons]
        refine ⟨by omega, rfl, ?_, ?_, ?_⟩
        · show convertOne cfg fs i = (fs, some e0)
          rw [hco, hunch]
        · show fs1 = fs
          exact hunch
        · intro j hj
          omega
      | none =>
        simp only at h
        have hr : batch_convert cfg fs1 rest = (fs2, .error e) := by
          cases hb : batch_convert cfg fs1 rest with
          | mk bfs br =>
            rw [hb] at h
            cases br with
            | ok n => simp [Except.map] at h
            | error e1 =>
              simp only [Except.map] at h
              cases h
              rfl
        obtain ⟨ih1, ih2, ih3, ih4, ih5⟩ := ih fs1 fs2 e hr
        have hsc : succCount cfg fs (i :: rest) = succCount cfg fs1 rest + 1 := by
          simp only [succCount]
          rw [hco]
        have htake : (i :: rest).take (succCount cfg fs1 rest + 1) =
            i :: rest.take (succCount cfg fs1 rest) := by
          simp [List.take_succ_cons]
        have hbatchtake : batch_convert cfg fs
            ((i :: rest).take (succCount cfg fs1 rest + 1)) =
            ((batch_convert cfg fs1 (rest.take (succCount cfg fs1 rest))).1,
              .ok (succCount cfg fs1 rest + 1)) := by
          rw [htake]
          simp only [batch_convert]
          rw [hco]
          simp only
          rw [ih2]
          rfl
        rw [hsc]
        refine ⟨by simpa using Nat.succ_lt_succ ih1, ?_, ?_, ?_, ?_⟩
        · rw [hbatchtake]
        · rw [hbatchtake]
          simpa [List.getD_cons_succ] using ih3
        · rw [hbatchtake]
          simpa using ih4
        · intro j hj
          cases j with
          | zero =>
            simp only [List.getD_cons_zero]
            have h1 : ((convertOne cfg fs i).1.files (batchPdfPath cfg i)).isSome = true :=
              convertOne_writes_pdf cfg fs i (by rw [hco])
            rw [hco] at h1
            have h2 := batch_convert_preserves_isSome cfg rest fs1 (batchPdfPath cfg i) h1
            rw [hr] at h2
            exact h2
          | succ j =>
            simp only [List.getD_cons_succ]
            exact ih5 j (by omega)

/-- `drawLineStep` keeps or increments the page number. -/
theorem drawLineStep_page_le (acc : DrawState × Int) (l : List Char) :
    acc.1.page ≤ (drawLineStep acc l).1.page := by
  unfold drawLineStep drawString showPage
  split <;> simp

/-- `drawLines` never decreases the page number. -/
theorem drawLines_page_le (ls : List (List Char)) :
    ∀ acc : DrawState × Int, acc.1.page ≤ (drawLines acc ls).1.page := by
  induction ls with
  | nil => intro acc; exact le_refl _
  | cons l ls ih =>
    intro acc
    exact le_trans (drawLineStep_page_le acc l) (ih (drawLineStep acc l))

/-- One paragraph step never decreases the page number. -/
theorem drawPara_page_le (w : Nat) (acc : DrawState × Int) (para : List Char) :
    acc.1.page ≤ (drawPara w acc para).1.page := by
  unfold drawPara
  split
  · exact le_refl _
  · exact drawLines_page_le _ acc

/-- The paragraph fold never decreases the page number. -/
theorem drawParasFold_page_le (w : Nat) (paras : List (List Char)) :
    ∀ acc : DrawState × Int, acc.1.page ≤ (paras.foldl (drawPara w) acc).1.page := by
  induction paras with
  | nil => intro acc; exact le_refl _
  | cons para paras ih =>
    intro acc
    exact le_trans (drawPara_page_le w acc para) (ih (drawPara w acc para))

/-- The attachment-line fold never decreases the page number. -/
theorem drawAttFold_page_le (atts : List AttachRec) :
    ∀ acc : DrawState × Int,
      acc.1.page ≤
        (atts.foldl (fun a att => drawLines a (wrap_text (attLineText att) 90))
          acc).1.page := by
  induction atts with
  | nil => intro acc; exact le_refl _
  | cons att atts ih =>
    intro acc
    exact le_trans (drawLines_page_le _ acc) (ih _)

/-- The attachment block never decreases the page number. -/
theorem drawAttachmentsBlock_page_le (atts : List AttachRec)
    (acc : DrawState × Int) :
    acc.1.page ≤ (drawAttachmentsBlock atts acc).1.page := by
  unfold drawAttachmentsBlock
  split
  · exact le_refl _
  · exact drawAttFold_page_le atts
      (drawString acc.1 (acc.2 - lineHeightPt) attachmentsHeader,
        acc.2 - lineHeightPt - lineHeightPt)

/-- Each new entry `drawLineStep` draws lies strictly above the bottom
threshold. -/
theorem drawLineStep_drawn_sub (acc : DrawState × Int) (l : List Char) :
    ∀ e ∈ (drawLineStep acc l).1.drawn, e ∈ acc.1.drawn ∨ bottomYPt < e.2.1 := by
  intro e he
  unfold drawLineStep drawString showPage at he
  split at he
  · simp only [List.mem_append, List.mem_singleton] at he
    rcases he with h | h
    · exact Or.inl h
    · subst h
      right
      show bottomYPt < topYPt
      decide
  · rename_i hy
    simp only [List.mem_append, List.mem_singleton] at he
    rcases he with h | h
    · exact Or.inl h
    · subst h
      right
      exact not_le.mp hy

/-- `drawLines` adds only entries above the bottom threshold. -/
theorem drawLines_drawn_sub (ls : List (List Char)) :
    ∀ acc : DrawState × Int, ∀ e ∈ (drawLines acc ls).1.drawn,
      e ∈ acc.1.drawn ∨ bottomYPt < e.2.1 := by
  induction ls with
  | nil => intro acc e he; exact Or.inl he
  | cons l ls ih =>
    intro acc e he
    rcases ih (drawLineStep acc l) e he with h | h
    · exact drawLineStep_drawn_sub acc l e h
    · exact Or.inr h

/-- One paragraph step adds only entries above the bottom threshold. -/
theorem drawPara_drawn_sub (w : Nat) (acc : DrawState × Int) (para : List Char) :
    ∀ e ∈ (drawPara w acc para).1.drawn, e ∈ acc.1.drawn ∨ bottomYPt < e.2.1 := by
  unfold drawPara
  split
  · intro e he; exact Or.inl he
  · exact drawLines_drawn_sub _ acc

/-- The paragraph fold adds only entries above the bottom threshold. -/
theorem drawParasFold_drawn_sub (w : Nat) (paras : List (List Char)) :
    ∀ acc : DrawState × Int, ∀ e ∈ (paras.foldl (drawPara w) acc).1.drawn,
      e ∈ acc.1.drawn ∨ bottomYPt < e.2.1 := by
  induction paras with
  | nil => intro acc e he; exact Or.inl he
  | cons para paras ih =>
    intro acc e he
    rcases ih (drawPara w acc para) e he with h | h
    · exact drawPara_drawn_sub w acc para e h
    · exact Or.inr h

/-- The attachment-line fold adds only entries above the bottom
threshold. -/
theorem drawAttFold_drawn_sub (atts : List AttachRec) :
    ∀ acc : DrawState × Int,
      ∀ e ∈ (atts.foldl
          (fun a att => drawLines a (wrap_text (attLineText att) 90)) acc).1.drawn,
        e ∈ acc.1.drawn ∨ bottomYPt < e.2.1 := by
  induction atts with
  | nil => intro acc e he; exact Or.inl he
  | cons att atts ih =>
    intro acc e he
    rcases ih _ e he with h | h
    · exact drawLines_drawn_sub _ acc e h
    · exact Or.inr h

/-- The attachment block adds only the header entry and entries above the
bottom threshold. -/
theorem drawAttachmentsBlock_drawn_sub (atts : List AttachRec)
    (acc : DrawState × Int) :
    ∀ e ∈ (drawAttachmentsBlock atts acc).1.drawn,
      e ∈ acc.1.drawn ∨ e.2.2 = attachmentsHeader ∨ bottomYPt < e.2.1 := by
  unfold drawAttachmentsBlock
  split
  · intro e he; exact Or.inl he
  · intro e he
    rcases drawAttFold_drawn_sub atts _ e he with h | h
    · have h2 : e ∈ acc.1.drawn ++
          [(acc.1.page, acc.2 - lineHeightPt, attachmentsHeader)] := h
      rcases List.mem_append.mp h2 with h1 | h1
      · exact Or.inl h1
      · simp only [List.mem_singleton] at h1
        subst h1
        exact Or.inr (Or.inl rfl)
    · exact Or.inr (Or.inr h)

/-- `splitWordsAux` with a nonempty accumulator emits at least one word. -/
theorem splitWordsAux_ne_nil_of_acc (s : List Char) :
    ∀ acc, acc ≠ [] → splitWordsAux s acc ≠ [] := by
  induction s with
  | nil =>
    intro acc hacc
    simp [splitWordsAux, hacc]
  | cons c cs ih =>
    intro acc hacc
    rw [splitWordsAux]
    by_cases hc : isPySpace c
    · rw [if_pos hc, if_neg hacc]
      simp
    · rw [if_neg hc]
      exact ih (c :: acc) (by simp)

/-- A string that does not strip to nothing splits into at least one
word. -/
theorem splitWords_ne_nil_of_strip (para : List Char) (h : pyStrip para ≠ []) :
    splitWords para ≠ [] := by
  have hnall : ¬ ∀ c ∈ para, isPySpace c = true :=
    fun hall => h ((pyStrip_eq_nil_iff para).mpr hall)
  unfold splitWords
  induction para with
  | nil => exact absurd (by simp) hnall
  | cons c cs ih =>
    rw [splitWordsAux]
    by_cases hc : isPySpace c
    · rw [if_pos hc, if_pos rfl]
      refine ih ?_ ?_
      · intro hstrip
        refine hnall ?_
        intro x hx
        rcases List.mem_cons.mp hx with h1 | h1
        · subst h1; exact hc
        · exact (pyStrip_eq_nil_iff cs).mp hstrip x h1
      · intro hall2
        exact hnall fun x hx => by
          rcases List.mem_cons.mp hx with h1 | h1
          · subst h1; exact hc
          · exact hall2 x h1
    · rw [if_neg hc]
      exact splitWordsAux_ne_nil_of_acc cs [c] (by simp)

/-- If `drawLines` causes no page break, the cursor descends exactly one
line height per line and every line (in particular the last) was drawn
strictly above the bottom threshold. -/
theorem drawLines_no_break (ls : List (List Char)) :
    ∀ (st : DrawState) (y : Int),
      (drawLines (st, y) ls).1.page = st.page →
      (drawLines (st, y) ls).2 = y - 14 * ls.length ∧
        (ls = [] ∨ 14 * ((ls.length : Int) - 1) < y - 72) := by
  induction ls with
  | nil =>
    intro st y _
    constructor
    · simp [drawLines]
    · exact Or.inl rfl
  | cons l ls ih =>
    intro st y hp
    by_cases hy : y ≤ bottomYPt
    · exfalso
      have hstep : drawLineStep (st, y) l =
          (drawString (showPage st) topYPt l, topYPt - lineHeightPt) := by
        unfold drawLineStep
        rw [if_pos hy]
      have hmono := drawLines_page_le ls (drawLineStep (st, y) l)
      rw [hstep] at hmono
      have hrw : (drawLines (st, y) (l :: ls)).1.page =
          (drawLines (drawString (showPage st) topYPt l,
            topYPt - lineHeightPt) ls).1.page := by
        show (drawLines (drawLineStep (st, y) l) ls).1.page = _
        rw [hstep]
      rw [hrw] at hp
      have hpage : (drawString (showPage st) topYPt l).page = st.page + 1 := rfl
      rw [hpage] at hmono
      omega
    · have hstep : drawLineStep (st, y) l = (drawString st y l, y - lineHeightPt) := by
        unfold drawLineStep
        rw [if_neg hy]
      have hrw : drawLines (st, y) (l :: ls) =
          drawLines (drawString st y l, y - lineHeightPt) ls := by
        show drawLines (drawLineStep (st, y) l) ls = _
        rw [hstep]
      rw [hrw] at hp ⊢
      have hpage : (drawString st y l).page = st.page := rfl
      obtain ⟨h1, h2⟩ := ih (drawString st y l) (y - lineHeightPt) (by rw [hp, hpage])
      constructor
      · rw [h1]
        simp only [List.length_cons, lineHeightPt]
        push_cast
        ring
      · right
        have hygt : bottomYPt < y := not_le.mp hy
        simp only [bottomYPt] at hygt
        rcases h2 with h2 | h2
        · subst h2
          simp only [List.length_nil, List.length_cons]
          push_cast
          omega
        · simp only [List.length_cons, lineHeightPt] at h2 ⊢
          push_cast at h2 ⊢
          omega

/-- If the paragraph fold causes no page break, the number of drawn body
lines is bounded by the capacity of the remaining space: either none, or
the last one was drawn above the bottom threshold. -/
theorem drawParasFold_no_break (w : Nat) (paras : List (List Char)) :
    ∀ (st : DrawState) (y : Int),
      (paras.foldl (drawPara w) (st, y)).1.page = st.page →
      ((paras.map (paraLineCount w)).sum = 0 ∨
        14 * (((paras.map (paraLineCount w)).sum : Int) - 1) < y - 72) := by
  induction paras with
  | nil =>
    intro st y _
    exact Or.inl rfl
  | cons para paras ih =>
    intro st y hp
    by_cases hblank : pyStrip para = []
    · have hstep : drawPara w (st, y) para = (st, y - lineHeightPt) := by
        simp [drawPara, hblank]
      have hrw : (para :: paras).foldl (drawPara w) (st, y) =
          paras.foldl (drawPara w) (st, y - lineHeightPt) := by
        simp only [List.foldl_cons, hstep]
      rw [hrw] at hp
      have hcount : paraLineCount w para = 0 := by simp [paraLineCount, hblank]
      rcases ih st (y - lineHeightPt) hp with h | h
      · left
        simp [hcount, h]
      · right
        simp only [List.map_cons, List.sum_cons, hcount, Nat.zero_add,
          lineHeightPt] at h ⊢
        omega
    · have hstep : drawPara w (st, y) para = drawLines (st, y) (wrap_text para w) := by
        simp [drawPara, hblank]
      have hrw : (para :: paras).foldl (drawPara w) (st, y) =
          paras.foldl (drawPara w) (drawLines (st, y) (wrap_text para w)) := by
        simp only [List.foldl_cons, hstep]
      rw [hrw] at hp
      cases hdl : drawLines (st, y) (wrap_text para w) with
      | mk st1 y1 =>
        rw [hdl] at hp
        have hm1 : st.page ≤ st1.page := by
          have h := drawLines_page_le (wrap_text para w) (st, y)
          rw [hdl] at h
          exact h
        have hm2 : st1.page ≤ (paras.foldl (drawPara w) (st1, y1)).1.page :=
          drawParasFold_page_le w paras (st1, y1)
        have hpeq : st1.page = st.page := by omega
        obtain ⟨h1, h2⟩ := drawLines_no_break (wrap_text para w) st y
          (by rw [hdl]; exact hpeq)
        rw [hdl] at h1
        have hne : wrap_text para w ≠ [] :=
          wrap_text_ne_nil para w (splitWords_ne_nil_of_strip para hblank)
        have hd1 : paraLineCount w para = (wrap_text para w).length := by
          simp [paraLineCount, hblank]
        have hih := ih st1 y1 (by rw [hp, hpeq])
        rcases h2 with h2 | h2
        · exact absurd h2 hne
        · right
          have hlen : 1 ≤ (wrap_text para w).length := by
            cases hq : wrap_text para w with
            | nil => exact absurd hq hne
            | cons a b => simp
          rcases hih with hih | hih
          · simp only [List.map_cons, List.sum_cons, hd1, hih, Nat.add_zero]
            exact h2
          · simp only [List.map_cons, List.sum_cons, hd1]
            push_cast at hih h2 ⊢
            omega

/-- C1 (amended): in the direct-layout path, every drawn line other than
the four fixed metadata lines and the bold `Attachments:` header has its
baseline strictly above the 1-inch bottom threshold (the `Attachments:`
header is drawn without a pagination check and may fall at or below the
threshold), and a body with more lines than one page's capacity of 45
produces more than one page. -/
theorem directLayout_pagination (flatten : List Char → List Char)
    (c : EmailContent) (atts : List AttachRec) :
    (∀ e ∈ (directLayout flatten c atts).1.drawn,
      e ∈ headerDrawn c ∨ e.2.2 = attachmentsHeader ∨ bottomYPt < e.2.1) ∧
    (45 < bodyLineCount (resolveBody flatten c) 90 →
      1 < (directLayout flatten c atts).1.page) := by
  constructor
  · intro e he
    unfold directLayout at he
    rcases drawAttachmentsBlock_drawn_sub atts _ e he with h | h | h
    · rcases drawParasFold_drawn_sub 90 (splitOnNl (resolveBody flatten c))
        ({ page := 1, drawn := headerDrawn c }, 693) e h with h1 | h1
      · exact Or.inl h1
      · exact Or.inr (Or.inr h1)
    · exact Or.inr (Or.inl h)
    · exact Or.inr (Or.inr h)
  · intro hcount
    by_contra hle
    push_neg at hle
    have hle2 : (drawAttachmentsBlock atts
        (draw_paragraphs { page := 1, drawn := headerDrawn c } 693
          (resolveBody flatten c) 90)).1.page ≤ 1 := hle
    cases hbp : draw_paragraphs { page := 1, drawn := headerDrawn c } 693
        (resolveBody flatten c) 90 with
    | mk st1 y1 =>
      rw [hbp] at hle2
      have hm1 : (1 : Nat) ≤ st1.page := by
        have h := drawParasFold_page_le 90 (splitOnNl (resolveBody flatten c))
          ({ page := 1, drawn := headerDrawn c }, 693)
        have hbp2 : (splitOnNl (resolveBody flatten c)).foldl (drawPara 90)
            ({ page := 1, drawn := headerDrawn c }, 693) = (st1, y1) := hbp
        rw [hbp2] at h
        exact h
      have hm2 : st1.page ≤ (drawAttachmentsBlock atts (st1, y1)).1.page :=
        drawAttachmentsBlock_page_le atts (st1, y1)
      have hpeq : st1.page = 1 := by omega
      have hnb := drawParasFold_no_break 90 (splitOnNl (resolveBody flatten c))
        { page := 1, drawn := headerDrawn c } 693 (by
          have hbp2 : (splitOnNl (resolveBody flatten c)).foldl (drawPara 90)
              ({ page := 1, drawn := headerDrawn c }, 693) = (st1, y1) := hbp
          rw [hbp2]
          exact hpeq)
      unfold bodyLineCount at hcount
      rcases hnb with h | h
      · omega
      · omega

set_option maxRecDepth 8000 in
/-- Counterexample to C1 as stated: with a body of 44 blank paragraphs and
one attachment, the bold `Attachments:` header is drawn at baseline 63, at
or below the 1-inch threshold of 72, because no pagination check precedes
it. -/
theorem directLayout_header_below_counterexample :
    ((1 : Nat), (63 : Int), attachmentsHeader) ∈
        (directLayout (fun s => s) contentBlank43 [attSample]).1.drawn ∧
      (63 : Int) ≤ bottomYPt := by
  refine ⟨by decide, by decide⟩

set_option maxRecDepth 8000 in
/-- Closed instance of `directLayout_pagination`: the first body line of
the 46-paragraph body is accounted for by the classification, and that body
produces a second page. -/
theorem directLayout_pagination_witness :
    (((1 : Nat), (693 : Int), ['a']) ∈ headerDrawn contentLong ∨
        ((1 : Nat), (693 : Int), ['a']).2.2 = attachmentsHeader ∨
        bottomYPt < ((1 : Nat), (693 : Int), ['a']).2.1) ∧
      1 < (directLayout (fun s => s) contentLong []).1.page := by
  constructor
  · exact (directLayout_pagination (fun s => s) contentLong []).1
      (1, 693, ['a']) (by decide)
  · exact (directLayout_pagination (fun s => s) contentLong []).2 (by decide)

/-- Closed instance of `batch_convert_fail_fast`: over the inputs `a` then
`m`, with `out/m.pdf` already on disk and overwrite disabled, the batch
stops at the second input with the propagated `FileExistsError` while the
first converted output is on disk. -/
theorem batch_convert_fail_fast_witness :
    (batch_convert cfgSample fsWithPdf [inputA, inputM]).2 =
        .error .fileExists ∧
      succCount cfgSample fsWithPdf [inputA, inputM] <
        ([inputA, inputM] : List EmlInput).length ∧
      (((batch_convert cfgSample fsWithPdf [inputA, inputM]).1).files
          (batchPdfPath cfgSample inputA)).isSome = true := by
  have h2 : (batch_convert cfgSample fsWithPdf [inputA, inputM]).2 =
      .error .fileExists := rfl
  have h : batch_convert cfgSample fsWithPdf [inputA, inputM] =
      ((batch_convert cfgSample fsWithPdf [inputA, inputM]).1,
        .error .fileExists) := by
    rw [← h2]
  obtain ⟨c1, c2, c3, c4, c5⟩ := batch_convert_fail_fast cfgSample fsWithPdf
    (batch_convert cfgSample fsWithPdf [inputA, inputM]).1 [inputA, inputM]
    .fileExists h
  refine ⟨h2, c1, ?_⟩
  have hs : succCount cfgSample fsWithPdf [inputA, inputM] = 1 := by decide
  have h5 := c5 0 (by rw [hs]; omega)
  have hget : ([inputA, inputM] : List EmlInput).getD 0 emlInputDefault =
      inputA := rfl
  rw [hget] at h5
  exact h5

end Eml2Pdf
